import Mathlib

/-!
A shallow embedding of the `Act` UI-reconciliation engine (src/index.js).
The source file contains two near-duplicate copies of the engine; the first
copy (lines 1-379) is embedded as the primary definitions, and the parts of
the second copy (lines 380-855) that are needed for the duplication claims
are embedded with a `2` suffix.

Modelling conventions:
  * JS element/fiber `type` (a host tag string or a function component
    reference) becomes the inductive `Tag`; JS `==` on types is equality on
    `Tag` (a string never equals a function; functions compare by identity,
    modelled by a numeric id).
  * DOM node references become numeric handles (`Nat`); property bags that
    reconciliation merely carries around become opaque numeric ids, while
    `updateDom`'s property bags are association lists `List (String × V)`.
  * JS code that can throw a `TypeError` (dereferencing `null`) is modelled
    with `Option`: `none` is the crash.
  * Mutation of the host DOM is modelled as an emitted trace of host
    operations (`HostOp` / `DomOp`), in program order.
-/

/-- The `type` field of an element or fiber: a host tag name (string) or a
function component (compared by reference identity, modelled as an id). -/
inductive Tag where
  | host (name : String)
  | fn (id : Nat)
deriving DecidableEq, Repr

/-- The `effectTag` values assigned during reconciliation
(src/index.js lines 295, 305, 309). -/
inductive Effect where
  | update
  | placement
  | deletion
deriving DecidableEq, Repr

/-- An element as seen by `reconcileChildren`: only `element.type` and
`element.props` are read there, so the property bag is an opaque id. -/
structure RElement where
  type : Tag
  props : Nat
deriving DecidableEq, Repr

/-- An old fiber on the `wipFiber.alternate.child` sibling chain, as read by
`reconcileChildren`: its `type`, its `dom`, and an identity (JS object
reference, modelled as an id) so that distinct fibers can be told apart.
The sibling link is represented by the fiber's position in the chain list. -/
structure OldFiber where
  id : Nat
  type : Tag
  dom : Option Nat
deriving DecidableEq, Repr

/-- A fiber freshly constructed by `reconcileChildren` (the object literals at
src/index.js lines 289-296 and 299-306).  The `parent` back-reference (always
the enclosing `wipFiber`) is omitted; the sibling links built through
`prevSibling.sibling` are represented by the output list order. -/
structure NewFiber where
  type : Tag
  props : Nat
  dom : Option Nat
  alternate : Option OldFiber
  effectTag : Effect
deriving DecidableEq, Repr

/-- The `UPDATE` branch of `reconcileChildren` (src/index.js lines 288-297):
reuse the old fiber's type and dom, take the new element's props, point
`alternate` at the old fiber. -/
def mkUpdateFiber (element : RElement) (oldFiber : OldFiber) : NewFiber :=
  { type := oldFiber.type
    props := element.props
    dom := oldFiber.dom
    alternate := some oldFiber
    effectTag := Effect.update }

/-- The `PLACEMENT` branch of `reconcileChildren` (src/index.js lines
298-307): fresh fiber from the element, no dom, no alternate. -/
def mkPlacementFiber (element : RElement) : NewFiber :=
  { type := element.type
    props := element.props
    dom := none
    alternate := none
    effectTag := Effect.placement }

/-- Denotation of the `reconcileChildren` loop (src/index.js lines 277-326)
as recursion on the remaining element list and the remaining old sibling
chain.  The first output component is the constructed child chain
(`wipFiber.child` / `prevSibling.sibling` links, in order), the second is the
`deletions` side list in push order.  The `[], olds` case collapses the
trailing loop iterations in which `elements[index]` is `undefined` and each
remaining old fiber is tagged `DELETION` and pushed; this collapse is proved
faithful against the literal one-iteration-at-a-time loop embedding below
(`reconcileLoop` / `reconcileStep`). -/
def reconcileChildren : List RElement → List OldFiber → List NewFiber × List OldFiber
  | [], olds => ([], olds)
  | element :: rest, [] =>
      let r := reconcileChildren rest []
      (mkPlacementFiber element :: r.1, r.2)
  | element :: rest, oldFiber :: olds =>
      if element.type = oldFiber.type then
        let r := reconcileChildren rest olds
        (mkUpdateFiber element oldFiber :: r.1, r.2)
      else
        let r := reconcileChildren rest olds
        (mkPlacementFiber element :: r.1, oldFiber :: r.2)

/-- Reconciliation of sibling lists whose types all coincide (the setting of
the cascading-shift property): the first `min` of the two lengths pairs up as
positional `UPDATE`s, surplus new elements become `PLACEMENT`s, surplus old
fibers become deletions. -/
theorem reconcileChildren_sameType (t : Tag) :
    ∀ (elements : List RElement) (olds : List OldFiber),
    (∀ e ∈ elements, e.type = t) → (∀ o ∈ olds, o.type = t) →
    reconcileChildren elements olds =
      (elements.zipWith mkUpdateFiber olds ++
        (elements.drop olds.length).map mkPlacementFiber,
       olds.drop elements.length) := by
  intro elements
  induction elements with
  | nil =>
      intro olds _ _
      simp [reconcileChildren]
  | cons e es ih =>
      intro olds he ho
      cases olds with
      | nil =>
          have ihe := ih [] (fun x hx => he x (List.mem_cons_of_mem e hx))
            (by intro x hx; cases hx)
          simp [reconcileChildren, ihe]
      | cons o os =>
          have het : e.type = t := he e (List.mem_cons_self e es)
          have hot : o.type = t := ho o (List.mem_cons_self o os)
          have : e.type = o.type := by rw [het, hot]
          simp only [reconcileChildren, if_pos this]
          have ihe := ih os (fun x hx => he x (List.mem_cons_of_mem e hx))
            (fun x hx => ho x (List.mem_cons_of_mem o hx))
          simp [ihe]

/-- C1 counterexample: old sibling chain of one `div` fiber, new child list of
two `div` elements (one inserted before the old list).  The claim says every
sibling after the insertion point is tagged `UPDATE`, with no `PLACEMENT`;
but the last following sibling falls past the end of the old chain and is
tagged `PLACEMENT`. -/
theorem reconcileChildren_insert_last_is_placement :
    ¬ (∀ f ∈ ((reconcileChildren
          [⟨Tag.host "div", 10⟩, ⟨Tag.host "div", 11⟩]
          [⟨0, Tag.host "div", some 5⟩]).1.drop 1),
        f.effectTag = Effect.update) := by
  decide

/-- C1 amended: inserting one same-tagged element before a same-tagged old
sibling chain makes every following sibling except the last an `UPDATE`
whose `alternate` is the (different) old fiber that previously occupied its
new slot; the last following sibling, having no old counterpart, is a
`PLACEMENT`; and no deletion is issued. -/
theorem reconcileChildren_insert_before_cascade
    (t : Tag) (elements : List RElement) (olds : List OldFiber)
    (he : ∀ e ∈ elements, e.type = t) (ho : ∀ o ∈ olds, o.type = t)
    (hlen : elements.length = olds.length + 1)
    (hid : (olds.map OldFiber.id).Nodup) :
    (reconcileChildren elements olds).2 = [] ∧
    (reconcileChildren elements olds).1.length = olds.length + 1 ∧
    (∀ i, (hi : i < olds.length) →
      (reconcileChildren elements olds).1[i]? =
        some (mkUpdateFiber (elements.get ⟨i, by omega⟩) (olds.get ⟨i, hi⟩))) ∧
    (reconcileChildren elements olds).1[olds.length]? =
      some (mkPlacementFiber (elements.get ⟨olds.length, by omega⟩)) ∧
    (∀ i, (hi : i < olds.length) → 1 ≤ i →
      olds.get ⟨i, hi⟩ ≠ olds.get ⟨i - 1, by omega⟩) := by
  have hmain := reconcileChildren_sameType t elements olds he ho
  rw [hmain]
  have hnd : olds.Nodup := hid.of_map
  refine ⟨List.drop_eq_nil_of_le (by omega), ?_, ?_, ?_, ?_⟩
  · simp only [List.length_append, List.length_zipWith, List.length_map,
      List.length_drop]
    omega
  · intro i hi
    have hz : i < (elements.zipWith mkUpdateFiber olds).length := by
      simp only [List.length_zipWith]; omega
    simp only [List.getElem?_append, hz, if_pos]
    rw [List.getElem?_eq_getElem hz]
    simp [List.getElem_zipWith]
  · have hz : (elements.zipWith mkUpdateFiber olds).length = olds.length := by
      simp only [List.length_zipWith]; omega
    rw [List.getElem?_append, hz, if_neg (lt_irrefl _), Nat.sub_self]
    rw [List.getElem?_map, List.getElem?_drop, Nat.add_zero,
      List.getElem?_eq_getElem (by omega : olds.length < elements.length)]
    simp
  · intro i hi h1 heq
    have := hnd.get_inj_iff.mp heq
    have : i = i - 1 := congrArg Fin.val this
    omega

/-- Witness for the amended cascading-shift theorem at a concrete input. -/
theorem reconcileChildren_insert_before_cascade_witness :
    (reconcileChildren [⟨Tag.host "div", 10⟩, ⟨Tag.host "div", 11⟩]
        [⟨0, Tag.host "div", some 5⟩]).2 = [] ∧
    (reconcileChildren [⟨Tag.host "div", 10⟩, ⟨Tag.host "div", 11⟩]
        [⟨0, Tag.host "div", some 5⟩]).1.length =
      ([⟨0, Tag.host "div", some 5⟩] : List OldFiber).length + 1 ∧
    (∀ i, (hi : i < ([⟨0, Tag.host "div", some 5⟩] : List OldFiber).length) →
      (reconcileChildren [⟨Tag.host "div", 10⟩, ⟨Tag.host "div", 11⟩]
          [⟨0, Tag.host "div", some 5⟩]).1[i]? =
        some (mkUpdateFiber
          (([⟨Tag.host "div", 10⟩, ⟨Tag.host "div", 11⟩] :
              List RElement).get ⟨i, by
                simp only [List.length_cons, List.length_nil] at hi ⊢
                omega⟩)
          (([⟨0, Tag.host "div", some 5⟩] : List OldFiber).get ⟨i, hi⟩))) ∧
    (reconcileChildren [⟨Tag.host "div", 10⟩, ⟨Tag.host "div", 11⟩]
        [⟨0, Tag.host "div", some 5⟩]).1[
          ([⟨0, Tag.host "div", some 5⟩] : List OldFiber).length]? =
      some (mkPlacementFiber
        (([⟨Tag.host "div", 10⟩, ⟨Tag.host "div", 11⟩] :
            List RElement).get ⟨([⟨0, Tag.host "div", some 5⟩] :
              List OldFiber).length, by decide⟩)) ∧
    (∀ i, (hi : i < ([⟨0, Tag.host "div", some 5⟩] : List OldFiber).length) →
      1 ≤ i →
      ([⟨0, Tag.host "div", some 5⟩] : List OldFiber).get ⟨i, hi⟩ ≠
        ([⟨0, Tag.host "div", some 5⟩] : List OldFiber).get ⟨i - 1, by
          simp only [List.length_cons, List.length_nil] at hi ⊢
          omega⟩) :=
  reconcileChildren_insert_before_cascade (Tag.host "div")
    [⟨Tag.host "div", 10⟩, ⟨Tag.host "div", 11⟩]
    [⟨0, Tag.host "div", some 5⟩]
    (by decide) (by decide) (by decide) (by decide)

/-! ### The reconciliation loop, one iteration at a time (claim C8)

The `while (index < elements.length || oldFiber != null)` loop of
`reconcileChildren` (src/index.js lines 282-325) embedded literally: a loop
state carrying the `index` counter, the old-fiber cursor (as the remaining
sibling chain), the constructed child chain so far, and the `deletions`
accumulator; one `reconcileStep` per iteration. -/

/-- The mutable state of one run of the `reconcileChildren` loop. -/
structure RecoState where
  index : Nat
  olds : List OldFiber
  fibers : List NewFiber
  dels : List OldFiber
deriving DecidableEq, Repr

/-- The loop condition `index < elements.length || oldFiber != null`. -/
def loopGuard (elements : List RElement) (s : RecoState) : Bool :=
  decide (s.index < elements.length) || !s.olds.isEmpty

/-- One iteration of the loop body (src/index.js lines 283-324):
read `elements[index]` and the old-fiber cursor, compute `sameType`, build
the new fiber (or none), push a deletion on a type mismatch, advance the
cursor to `oldFiber.sibling`, attach the new fiber to the child chain, and
increment `index`. -/
def reconcileStep (elements : List RElement) (s : RecoState) : RecoState :=
  let element := elements[s.index]?
  let oldFiber := s.olds.head?
  let newFiber : Option NewFiber :=
    match oldFiber, element with
    | some o, some e =>
        if e.type = o.type then some (mkUpdateFiber e o)
        else some (mkPlacementFiber e)
    | none, some e => some (mkPlacementFiber e)
    | _, none => none
  let dels : List OldFiber :=
    match oldFiber, element with
    | some o, some e => if e.type = o.type then s.dels else s.dels ++ [o]
    | some o, none => s.dels ++ [o]
    | none, _ => s.dels
  { index := s.index + 1
    olds := s.olds.tail
    fibers := s.fibers ++ newFiber.toList
    dels := dels }

/-- The loop itself: keep stepping while the guard holds (fuel-bounded; any
fuel of at least `max elements.length olds.length` reaches the exit). -/
def reconcileLoop (elements : List RElement) : Nat → RecoState → RecoState
  | 0, s => s
  | fuel + 1, s =>
      if loopGuard elements s then
        reconcileLoop elements fuel (reconcileStep elements s)
      else s

/-- The loop state at entry: `index = 0`, cursor at
`wipFiber.alternate.child`, no chain, fresh deletions. -/
def startState (olds : List OldFiber) : RecoState :=
  { index := 0, olds := olds, fibers := [], dels := [] }

/-- Unconditional iteration of the loop body, for talking about the state
after exactly `k` iterations. -/
def runSteps (elements : List RElement) : Nat → RecoState → RecoState
  | 0, s => s
  | k + 1, s => runSteps elements k (reconcileStep elements s)

theorem runSteps_succ (elements : List RElement) :
    ∀ (k : Nat) (s : RecoState),
      runSteps elements (k + 1) s = reconcileStep elements (runSteps elements k s) := by
  intro k
  induction k with
  | zero => intro s; rfl
  | succ n ih => intro s; exact ih (reconcileStep elements s)

theorem runSteps_index (elements : List RElement) :
    ∀ (k : Nat) (s : RecoState), (runSteps elements k s).index = s.index + k := by
  intro k
  induction k with
  | zero => intro s; rfl
  | succ n ih =>
      intro s
      rw [runSteps_succ]
      show (runSteps elements n s).index + 1 = s.index + (n + 1)
      rw [ih s]
      omega

theorem runSteps_olds (elements : List RElement) :
    ∀ (k : Nat) (s : RecoState), (runSteps elements k s).olds = s.olds.drop k := by
  intro k
  induction k with
  | zero => intro s; simp [runSteps]
  | succ n ih =>
      intro s
      rw [runSteps_succ]
      show (runSteps elements n s).olds.tail = s.olds.drop (n + 1)
      rw [ih s, ← List.drop_one, List.drop_drop]

theorem loopGuard_runSteps (es : List RElement) (olds : List OldFiber) (k : Nat) :
    loopGuard es (runSteps es k (startState olds)) = true ↔
      k < max es.length olds.length := by
  simp only [loopGuard, runSteps_index, runSteps_olds, startState,
    Bool.or_eq_true, decide_eq_true_eq, Bool.not_eq_true',
    List.isEmpty_eq_false, ne_eq, List.drop_eq_nil_iff, Nat.zero_add]
  omega

/-- Running the loop body exactly `max (remaining elements) (remaining olds)`
times from an intermediate state agrees with the recursive
`reconcileChildren` on the remaining input: the index advances by one each
iteration, the old cursor empties, and the constructed chain and deletions
accumulate in order. -/
theorem runSteps_eq_reconcileChildren (es : List RElement) :
    ∀ (M k : Nat) (olds : List OldFiber) (fib : List NewFiber)
      (dl : List OldFiber),
      M = max (es.length - k) olds.length →
      runSteps es M ⟨k, olds, fib, dl⟩ =
        ⟨k + M, [], fib ++ (reconcileChildren (es.drop k) olds).1,
          dl ++ (reconcileChildren (es.drop k) olds).2⟩ := by
  intro M
  induction M with
  | zero =>
      intro k olds fib dl hM
      have h1 : es.length ≤ k := by omega
      have h2 : olds = [] := List.eq_nil_of_length_eq_zero (by omega)
      subst h2
      rw [List.drop_eq_nil_of_le h1]
      simp [runSteps, reconcileChildren]
  | succ M ih =>
      intro k olds fib dl hM
      show runSteps es M (reconcileStep es ⟨k, olds, fib, dl⟩) = _
      rcases h : es[k]? with _ | e
      · have hk : es.length ≤ k := List.getElem?_eq_none_iff.mp h
        cases olds with
        | nil => simp at hM; omega
        | cons o os =>
            have hstep : reconcileStep es ⟨k, o :: os, fib, dl⟩ =
                ⟨k + 1, os, fib, dl ++ [o]⟩ := by
              simp [reconcileStep, h]
            rw [hstep, ih (k + 1) os fib (dl ++ [o]) (by simp at hM ⊢; omega)]
            rw [List.drop_eq_nil_of_le hk, List.drop_eq_nil_of_le (by omega)]
            simp [reconcileChildren]
            omega
      · have hk : k < es.length := by
          by_contra hc
          rw [List.getElem?_eq_none_iff.mpr (by omega)] at h
          exact Option.noConfusion h
        obtain ⟨hk2, hke⟩ := List.getElem?_eq_some_iff.mp h
        have hdk : es.drop k = e :: es.drop (k + 1) := by
          rw [List.drop_eq_getElem_cons hk, hke]
        cases olds with
        | nil =>
            have hstep : reconcileStep es ⟨k, [], fib, dl⟩ =
                ⟨k + 1, [], fib ++ [mkPlacementFiber e], dl⟩ := by
              simp [reconcileStep, h]
            rw [hstep, ih (k + 1) [] _ _
              (by simp only [List.length_nil] at hM ⊢; omega)]
            rw [hdk]
            simp [reconcileChildren, List.append_assoc]
            omega
        | cons o os =>
            by_cases ht : e.type = o.type
            · have hstep : reconcileStep es ⟨k, o :: os, fib, dl⟩ =
                  ⟨k + 1, os, fib ++ [mkUpdateFiber e o], dl⟩ := by
                simp [reconcileStep, h, ht]
              rw [hstep, ih (k + 1) os _ _
                (by simp only [List.length_cons] at hM ⊢; omega)]
              rw [hdk]
              simp [reconcileChildren, ht, List.append_assoc]
              omega
            · have hstep : reconcileStep es ⟨k, o :: os, fib, dl⟩ =
                  ⟨k + 1, os, fib ++ [mkPlacementFiber e], dl ++ [o]⟩ := by
                simp [reconcileStep, h, ht]
              rw [hstep, ih (k + 1) os _ _
                (by simp only [List.length_cons] at hM ⊢; omega)]
              rw [hdk]
              simp [reconcileChildren, ht, List.append_assoc]
              omega

theorem reconcileLoop_exit (es : List RElement) (olds : List OldFiber) :
    ∀ (fuel k : Nat), k ≤ max es.length olds.length →
      max es.length olds.length ≤ k + fuel →
      reconcileLoop es fuel (runSteps es k (startState olds)) =
        runSteps es (max es.length olds.length) (startState olds) := by
  intro fuel
  induction fuel with
  | zero =>
      intro k h1 h2
      have hk : k = max es.length olds.length := by omega
      rw [hk]
      rfl
  | succ n ih =>
      intro k h1 h2
      simp only [reconcileLoop]
      by_cases hg : loopGuard es (runSteps es k (startState olds)) = true
      · have hk : k < max es.length olds.length :=
          (loopGuard_runSteps es olds k).mp hg
        rw [if_pos hg, ← runSteps_succ]
        exact ih (k + 1) (by omega) (by omega)
      · have hk : ¬ k < max es.length olds.length :=
          fun hlt => hg ((loopGuard_runSteps es olds k).mpr hlt)
        have hke : k = max es.length olds.length := by omega
        rw [if_neg hg, hke]

/-- C8: the `reconcileChildren` loop advances `index` by one on every
iteration and the old-fiber cursor by one sibling whenever one remains
(`olds.drop k` after `k` iterations); its guard holds after `k` iterations
exactly while `k < max elements.length olds.length`, so the loop terminates
after exactly that many iterations, precisely when both the element list and
the old sibling chain are exhausted; and the terminal state carries the
child chain and deletions of `reconcileChildren`. -/
theorem reconcileChildren_loop_terminates (es : List RElement)
    (olds : List OldFiber) :
    (∀ (k : Nat) (s : RecoState), (runSteps es k s).index = s.index + k) ∧
    (∀ k : Nat, (runSteps es k (startState olds)).olds = olds.drop k) ∧
    (∀ k : Nat, loopGuard es (runSteps es k (startState olds)) = true ↔
        k < max es.length olds.length) ∧
    reconcileLoop es (es.length + olds.length) (startState olds) =
      runSteps es (max es.length olds.length) (startState olds) ∧
    (runSteps es (max es.length olds.length) (startState olds)).index =
      max es.length olds.length ∧
    (runSteps es (max es.length olds.length) (startState olds)).olds = [] ∧
    (runSteps es (max es.length olds.length) (startState olds)).fibers =
      (reconcileChildren es olds).1 ∧
    (runSteps es (max es.length olds.length) (startState olds)).dels =
      (reconcileChildren es olds).2 := by
  have hfinal := runSteps_eq_reconcileChildren es
    (max es.length olds.length) 0 olds [] []
    (by rw [Nat.sub_zero])
  have hstart : (⟨0, olds, [], []⟩ : RecoState) = startState olds := rfl
  rw [hstart] at hfinal
  refine ⟨runSteps_index es, fun k => ?_, loopGuard_runSteps es olds,
    reconcileLoop_exit es olds (es.length + olds.length) 0
      (Nat.zero_le _) (by omega), ?_, ?_, ?_, ?_⟩
  · rw [runSteps_olds]
    rfl
  · rw [hfinal]
    simp
  · rw [hfinal]
  · rw [hfinal]
    simp
  · rw [hfinal]
    simp

/-! ### State hooks and the scheduler globals (claims C3, C5, C9) -/

/-- A state-hook slot (src/index.js lines 244-247): the persisted state and
the queue of pending update functions. -/
structure Hook (S : Type) where
  state : S
  queue : List (S → S)

/-- The hook computation at the top of `useState` (src/index.js lines
240-252 and 265-267): fetch the old hook at the current hook index from the
fiber's alternate, seed the new hook's state from it (or from `initial` if
there is none), then drain the old hook's queued update functions in order,
folding the state forward; the new hook starts with an empty queue. -/
def useStateHook {S : Type} (oldHook : Option (Hook S)) (initial : S) : Hook S :=
  let base := match oldHook with
    | some h => h.state
    | none => initial
  let actions := match oldHook with
    | some h => h.queue
    | none => []
  { state := actions.foldl (fun st action => action st) base, queue := [] }

/-- The enqueue half of `setState` (src/index.js line 255):
`hook.queue.push(action)`. -/
def hookPush {S : Type} (hook : Hook S) (action : S → S) : Hook S :=
  { hook with queue := hook.queue ++ [action] }

/-- A root fiber as built by `render` and `setState` (src/index.js lines
177-183 and 256-260): a host dom handle, the props bag (opaque id), and the
`alternate` link to the previously committed root. -/
inductive RootFiber where
  | mk (dom : Nat) (props : Nat) (alternate : Option RootFiber)

/-- Accessor for the `dom` field of a root fiber. -/
def RootFiber.dom : RootFiber → Nat
  | mk d _ _ => d

/-- Accessor for the `props` field of a root fiber. -/
def RootFiber.props : RootFiber → Nat
  | mk _ p _ => p

/-- Accessor for the `alternate` field of a root fiber. -/
def RootFiber.alternate : RootFiber → Option RootFiber
  | mk _ _ a => a

/-- The module-level scheduler variables (src/index.js lines 188-191), in
source order: `nextUnitOfWork`, `currentRoot`, `wipRoot`, `deletions`. -/
structure Scheduler where
  nextUnitOfWork : Option RootFiber
  currentRoot : Option RootFiber
  wipRoot : Option RootFiber
  deletions : Option (List OldFiber)

/-- `render` (src/index.js lines 176-186): install a fresh work-in-progress
root carrying the host container as its dom, with the current committed root
as `alternate`, reset `deletions`, and point `nextUnitOfWork` at the new
root.  The props bag `{ children: [element] }` is carried as the opaque id
`elementProps`. -/
def render (elementProps : Nat) (container : Nat) (s : Scheduler) : Scheduler :=
  let wip := RootFiber.mk container elementProps s.currentRoot
  { s with wipRoot := some wip, deletions := some [],
           nextUnitOfWork := some wip }

/-- `setState` (src/index.js lines 254-263): push the update function onto
this hook's queue, then unconditionally build a fresh work-in-progress root
from `currentRoot.dom`, `currentRoot.props` and `currentRoot` itself, point
`nextUnitOfWork` at it, and reset `deletions`.  Reading `currentRoot.dom`
throws a `TypeError` when nothing has committed yet (`currentRoot` is still
`null`); the crash is the `none` result. -/
def setState {S : Type} (hook : Hook S) (action : S → S) (s : Scheduler) :
    Option (Hook S × Scheduler) :=
  match s.currentRoot with
  | none => none
  | some cur =>
      let wip := RootFiber.mk cur.dom cur.props (some cur)
      some (hookPush hook action,
        { s with wipRoot := some wip, nextUnitOfWork := some wip,
                 deletions := some [] })

/-- C3: the queued update functions of a hook slot are drained and applied
in enqueue order on the next render of the fiber: with persisted state `s`
and queue `[f, g]` the exposed state is `g (f s)` (and in general the fold
of the queue over the persisted state); `setState`'s push appends at the
tail, so enqueuing `f` then `g` yields queue `[f, g]`; with initial state
`0` and two enqueues of `n + 1` the state after one commit cycle is `2`. -/
theorem useState_drains_queue_in_order (S : Type) (s initial : S)
    (f g : S → S) :
    (useStateHook (some ⟨s, [f, g]⟩) initial).state = g (f s) ∧
    (∀ q : List (S → S), (useStateHook (some ⟨s, q⟩) initial).state =
      q.foldl (fun st action => action st) s) ∧
    (hookPush (hookPush (⟨s, []⟩ : Hook S) f) g).queue = [f, g] ∧
    (useStateHook
        (some (hookPush (hookPush (useStateHook none (0 : Nat))
          (fun n => n + 1)) (fun n => n + 1))) 0).state = 2 :=
  ⟨rfl, fun _ => rfl, rfl, rfl⟩

/-- C5: when a committed root exists, `setState` enqueues the update
function on that hook's queue and unconditionally installs a fresh
work-in-progress root whose dom, props and alternate all come from the
committed root, overwrites `nextUnitOfWork`, resets `deletions`, and does
all of this independently of any previous work-in-progress state (which is
thereby discarded). -/
theorem setState_installs_fresh_wip_root (S : Type) (hook : Hook S)
    (action : S → S) (s : Scheduler) (cur : RootFiber)
    (hcur : s.currentRoot = some cur) :
    setState hook action s =
      some (hookPush hook action,
        { s with
            wipRoot := some (RootFiber.mk cur.dom cur.props (some cur))
            nextUnitOfWork := some (RootFiber.mk cur.dom cur.props (some cur))
            deletions := some [] }) ∧
    (hookPush hook action).queue = hook.queue ++ [action] ∧
    (∀ (w n : Option RootFiber) (d : Option (List OldFiber)),
      setState hook action
          { s with wipRoot := w, nextUnitOfWork := n, deletions := d } =
        setState hook action s) := by
  refine ⟨?_, rfl, ?_⟩
  · simp [setState, hcur]
  · intro w n d
    simp [setState, hcur]

/-- Witness for the fresh-root theorem at a concrete scheduler state. -/
theorem setState_installs_fresh_wip_root_witness :
    setState (⟨0, []⟩ : Hook Nat) (fun n => n + 1)
        ⟨none, some (RootFiber.mk 1 2 none), none, none⟩ =
      some (hookPush ⟨0, []⟩ (fun n => n + 1),
        { (⟨none, some (RootFiber.mk 1 2 none), none, none⟩ : Scheduler) with
            wipRoot := some (RootFiber.mk (RootFiber.mk 1 2 none).dom
              (RootFiber.mk 1 2 none).props (some (RootFiber.mk 1 2 none)))
            nextUnitOfWork := some (RootFiber.mk (RootFiber.mk 1 2 none).dom
              (RootFiber.mk 1 2 none).props (some (RootFiber.mk 1 2 none)))
            deletions := some [] }) ∧
    (hookPush (⟨0, []⟩ : Hook Nat) (fun n => n + 1)).queue =
      (⟨0, []⟩ : Hook Nat).queue ++ [fun n => n + 1] ∧
    (∀ (w n : Option RootFiber) (d : Option (List OldFiber)),
      setState (⟨0, []⟩ : Hook Nat) (fun n => n + 1)
          { (⟨none, some (RootFiber.mk 1 2 none), none, none⟩ : Scheduler) with
              wipRoot := w, nextUnitOfWork := n, deletions := d } =
        setState (⟨0, []⟩ : Hook Nat) (fun n => n + 1)
          ⟨none, some (RootFiber.mk 1 2 none), none, none⟩) :=
  setState_installs_fresh_wip_root Nat ⟨0, []⟩ (fun n => n + 1)
    ⟨none, some (RootFiber.mk 1 2 none), none, none⟩
    (RootFiber.mk 1 2 none) rfl

/-- C9: `setState` has the unstated precondition that a commit has
completed: with `currentRoot` still `null` the call dereferences `null` and
fails, and whenever a committed root exists the failing branch is
unreachable. -/
theorem setState_null_root_crashes (S : Type) (hook : Hook S)
    (action : S → S) (s : Scheduler) :
    (s.currentRoot = none → setState hook action s = none) ∧
    (∀ cur, s.currentRoot = some cur →
      (setState hook action s).isSome = true) := by
  constructor
  · intro h
    simp [setState, h]
  · intro cur h
    simp [setState, h]

/-- Witness for the null-root crash theorem at concrete scheduler states. -/
theorem setState_null_root_crashes_witness :
    setState (⟨0, []⟩ : Hook Nat) (fun n => n + 1)
        ⟨none, none, none, none⟩ = none ∧
    (setState (⟨0, []⟩ : Hook Nat) (fun n => n + 1)
        ⟨none, some (RootFiber.mk 1 2 none), none, none⟩).isSome = true :=
  ⟨(setState_null_root_crashes Nat ⟨0, []⟩ (fun n => n + 1)
      ⟨none, none, none, none⟩).1 rfl,
   (setState_null_root_crashes Nat ⟨0, []⟩ (fun n => n + 1)
      ⟨none, some (RootFiber.mk 1 2 none), none, none⟩).2
      (RootFiber.mk 1 2 none) rfl⟩

/-! ### Host property reconciliation `updateDom` (claims C7, C2)

Property bags are association lists `List (String × V)` (JS objects have
unique keys and `Object.keys` returns them in insertion order; lookups are
first-match).  The DOM mutations performed by `updateDom` are emitted as a
trace of `DomOp`s in program order. -/

/-- Lookup `bag[key]`: `none` is JS `undefined` (key absent). -/
def jsGet {V : Type} (bag : List (String × V)) (key : String) : Option V :=
  (bag.find? (fun p => p.1 == key)).map Prod.snd

/-- The reserved event-binding prefix test `key.startsWith('on')`
(src/index.js line 98), written on the character list so that it computes
in the kernel. -/
def isEvent (key : String) : Bool :=
  match key.data with
  | 'o' :: 'n' :: _ => true
  | _ => false

/-- Plain-attribute test `key !== 'children' && !isEvent(key)`
(src/index.js line 99). -/
def isProperty (key : String) : Bool :=
  key != "children" && !(isEvent key)

/-- Changed-or-new test `prev[key] !== next[key]` (src/index.js line 100). -/
def isNewProp {V : Type} [DecidableEq V] (prev next : List (String × V))
    (key : String) : Bool :=
  decide (jsGet prev key ≠ jsGet next key)

/-- Removed-key test `!(key in next)` (src/index.js line 101). -/
def isGone {V : Type} (prev next : List (String × V)) (key : String) : Bool :=
  !(jsGet next key).isSome

/-- `name.toLowerCase().substring(2)` (src/index.js lines 108, 133). -/
def eventType (name : String) : String :=
  String.mk ((name.data.map Char.toLower).drop 2)

/-- One host-DOM mutation performed by `updateDom`, in trace order.  The
handler/value carries the looked-up bag entry (`none` would be JS
`undefined`). -/
inductive DomOp (V : Type) where
  | removeListener (eventType : String) (handler : Option V)
  | clearProperty (name : String)
  | setProperty (name : String) (value : Option V)
  | addListener (eventType : String) (handler : Option V)
deriving DecidableEq, Repr

/-- Phase 1 of `updateDom` (src/index.js lines 103-110): unbind event
listeners whose key is removed (`!(key in nextProps)`) or changed. -/
def removeOldListeners {V : Type} [DecidableEq V]
    (prevProps nextProps : List (String × V)) : List (DomOp V) :=
  ((prevProps.map Prod.fst).filter (fun key =>
      isEvent key &&
        (!(jsGet nextProps key).isSome || isNewProp prevProps nextProps key))).map
    (fun name => DomOp.removeListener (eventType name) (jsGet prevProps name))

/-- Phase 2 of `updateDom` (src/index.js lines 112-118): clear plain
attributes present before but absent after (`dom[name] = ''`). -/
def removeOldProperties {V : Type} [DecidableEq V]
    (prevProps nextProps : List (String × V)) : List (DomOp V) :=
  ((prevProps.map Prod.fst).filter (fun key =>
      isProperty key && isGone prevProps nextProps key)).map
    (fun name => DomOp.clearProperty name)

/-- Phase 3 of `updateDom` (src/index.js lines 120-126): set changed or
newly present plain attributes. -/
def setNewProperties {V : Type} [DecidableEq V]
    (prevProps nextProps : List (String × V)) : List (DomOp V) :=
  ((nextProps.map Prod.fst).filter (fun key =>
      isProperty key && isNewProp prevProps nextProps key)).map
    (fun name => DomOp.setProperty name (jsGet nextProps name))

/-- Phase 4 of `updateDom` (src/index.js lines 128-135): bind new or
changed event listeners. -/
def addNewListeners {V : Type} [DecidableEq V]
    (prevProps nextProps : List (String × V)) : List (DomOp V) :=
  ((nextProps.map Prod.fst).filter (fun key =>
      isEvent key && isNewProp prevProps nextProps key)).map
    (fun name => DomOp.addListener (eventType name) (jsGet nextProps name))

/-- `updateDom` (src/index.js lines 102-136): the four phases run in source
order, and their mutations are the emitted trace. -/
def updateDom {V : Type} [DecidableEq V]
    (prevProps nextProps : List (String × V)) : List (DomOp V) :=
  removeOldListeners prevProps nextProps ++
    removeOldProperties prevProps nextProps ++
    setNewProperties prevProps nextProps ++
    addNewListeners prevProps nextProps

/-- A bag with every entry under the reserved `children` key erased; used to
state that `updateDom` never touches that key. -/
def scrubChildren {V : Type} (bag : List (String × V)) : List (String × V) :=
  bag.filter (fun p => p.1 != "children")

theorem isEvent_ne_children {k : String} (h : isEvent k = true) :
    k ≠ "children" := by
  intro he
  rw [he] at h
  exact (by decide : ¬ (isEvent "children" = true)) h

theorem isProperty_ne_children {k : String} (h : isProperty k = true) :
    k ≠ "children" := by
  have h1 : (k != "children") = true := (Bool.and_eq_true _ _ ▸ h).1
  exact bne_iff_ne.mp h1

theorem jsGet_scrubChildren {V : Type} (bag : List (String × V))
    (key : String) (hk : key ≠ "children") :
    jsGet (scrubChildren bag) key = jsGet bag key := by
  induction bag with
  | nil => rfl
  | cons a rest ih =>
      rcases hc : (a.1 == "children") with _ | _
      · rcases hek : (a.1 == key) with _ | _
        · simp [scrubChildren, jsGet, List.filter_cons, List.find?_cons,
            bne, hc, hek] at *
          exact ih
        · simp [scrubChildren, jsGet, List.filter_cons, List.find?_cons,
            bne, hc, hek]
      · have hek : (a.1 == key) = false := by
          rw [eq_of_beq hc]
          exact beq_eq_false_iff_ne.mpr (Ne.symm hk)
        simp [scrubChildren, jsGet, List.filter_cons, List.find?_cons,
          bne, hc, hek] at *
        exact ih

theorem keys_scrubChildren {V : Type} (bag : List (String × V)) :
    (scrubChildren bag).map Prod.fst =
      (bag.map Prod.fst).filter (fun k => k != "children") := by
  induction bag with
  | nil => rfl
  | cons a rest ih =>
      rcases h : (a.1 != "children") with _ | _ <;>
        simp [scrubChildren, List.filter_cons, h] at * <;>
        exact ih

theorem phase_scrub_eq {V : Type} (bag : List (String × V))
    (cond cond' : String → Bool) (build build' : String → DomOp V)
    (hne : ∀ k, cond k = true → k ≠ "children")
    (hcond : ∀ k, k ≠ "children" → cond' k = cond k)
    (hbuild : ∀ k, k ≠ "children" → cond k = true → build' k = build k) :
    (((scrubChildren bag).map Prod.fst).filter cond').map build' =
      ((bag.map Prod.fst).filter cond).map build := by
  rw [keys_scrubChildren, List.filter_filter]
  have h1 : ∀ k ∈ bag.map Prod.fst,
      (cond' k && (k != "children")) = cond k := by
    intro k _
    by_cases hk : k = "children"
    · subst hk
      have : cond "children" = false :=
        Bool.eq_false_iff.mpr (fun h => hne _ h rfl)
      simp [this]
    · simp [hcond k hk, hk]
  rw [List.filter_congr h1]
  apply List.map_congr_left
  intro k hkmem
  have hc : cond k = true := (List.mem_filter.mp hkmem).2
  exact hbuild k (hne k hc) hc

theorem removeOldListeners_scrub {V : Type} [DecidableEq V]
    (prevProps nextProps : List (String × V)) :
    removeOldListeners (scrubChildren prevProps) (scrubChildren nextProps) =
      removeOldListeners prevProps nextProps := by
  unfold removeOldListeners
  refine phase_scrub_eq prevProps _ _ _ _
    (fun k h => isEvent_ne_children (Bool.and_eq_true _ _ ▸ h).1)
    (fun k hk => ?_) (fun k hk _ => ?_)
  · simp only [isNewProp, jsGet_scrubChildren nextProps k hk,
      jsGet_scrubChildren prevProps k hk]
  · rw [jsGet_scrubChildren prevProps k hk]

theorem removeOldProperties_scrub {V : Type} [DecidableEq V]
    (prevProps nextProps : List (String × V)) :
    removeOldProperties (scrubChildren prevProps) (scrubChildren nextProps) =
      removeOldProperties prevProps nextProps := by
  unfold removeOldProperties
  refine phase_scrub_eq prevProps _ _ _ _
    (fun k h => isProperty_ne_children (Bool.and_eq_true _ _ ▸ h).1)
    (fun k hk => ?_) (fun k hk _ => rfl)
  simp only [isGone, jsGet_scrubChildren nextProps k hk]

theorem setNewProperties_scrub {V : Type} [DecidableEq V]
    (prevProps nextProps : List (String × V)) :
    setNewProperties (scrubChildren prevProps) (scrubChildren nextProps) =
      setNewProperties prevProps nextProps := by
  unfold setNewProperties
  refine phase_scrub_eq nextProps _ _ _ _
    (fun k h => isProperty_ne_children (Bool.and_eq_true _ _ ▸ h).1)
    (fun k hk => ?_) (fun k hk _ => ?_)
  · simp only [isNewProp, jsGet_scrubChildren nextProps k hk,
      jsGet_scrubChildren prevProps k hk]
  · rw [jsGet_scrubChildren nextProps k hk]

theorem addNewListeners_scrub {V : Type} [DecidableEq V]
    (prevProps nextProps : List (String × V)) :
    addNewListeners (scrubChildren prevProps) (scrubChildren nextProps) =
      addNewListeners prevProps nextProps := by
  unfold addNewListeners
  refine phase_scrub_eq nextProps _ _ _ _
    (fun k h => isEvent_ne_children (Bool.and_eq_true _ _ ▸ h).1)
    (fun k hk => ?_) (fun k hk _ => ?_)
  · simp only [isNewProp, jsGet_scrubChildren nextProps k hk,
      jsGet_scrubChildren prevProps k hk]
  · rw [jsGet_scrubChildren nextProps k hk]

/-- C7: the property diff runs its four phases in source order — unbind
removed-or-changed event listeners, clear gone plain attributes, set new or
changed attributes, bind new-or-changed listeners last — and the reserved
`children` key is never touched: no clear/set op ever targets it, and
erasing every `children` entry from both bags leaves the whole trace
unchanged. -/
theorem updateDom_phase_order_and_children (V : Type) [DecidableEq V]
    (prevProps nextProps : List (String × V)) :
    updateDom prevProps nextProps =
      removeOldListeners prevProps nextProps ++
        removeOldProperties prevProps nextProps ++
        setNewProperties prevProps nextProps ++
        addNewListeners prevProps nextProps ∧
    (∀ op ∈ removeOldListeners prevProps nextProps,
      ∃ et h, op = DomOp.removeListener et h) ∧
    (∀ op ∈ removeOldProperties prevProps nextProps,
      ∃ nm, op = DomOp.clearProperty nm) ∧
    (∀ op ∈ setNewProperties prevProps nextProps,
      ∃ nm v, op = DomOp.setProperty nm v) ∧
    (∀ op ∈ addNewListeners prevProps nextProps,
      ∃ et h, op = DomOp.addListener et h) ∧
    (∀ nm, DomOp.clearProperty nm ∈ updateDom prevProps nextProps →
      nm ≠ "children") ∧
    (∀ nm v, DomOp.setProperty nm v ∈ updateDom prevProps nextProps →
      nm ≠ "children") ∧
    updateDom (scrubChildren prevProps) (scrubChildren nextProps) =
      updateDom prevProps nextProps := by
  refine ⟨rfl, ?_, ?_, ?_, ?_, ?_, ?_, ?_⟩
  · intro op hop
    obtain ⟨k, _, rfl⟩ := List.mem_map.mp hop
    exact ⟨_, _, rfl⟩
  · intro op hop
    obtain ⟨k, _, rfl⟩ := List.mem_map.mp hop
    exact ⟨_, rfl⟩
  · intro op hop
    obtain ⟨k, _, rfl⟩ := List.mem_map.mp hop
    exact ⟨_, _, rfl⟩
  · intro op hop
    obtain ⟨k, _, rfl⟩ := List.mem_map.mp hop
    exact ⟨_, _, rfl⟩
  · intro nm hmem
    simp only [updateDom, List.mem_append] at hmem
    rcases hmem with ((h1 | h2) | h3) | h4
    · obtain ⟨k, _, heq⟩ := List.mem_map.mp h1
      exact absurd heq (by simp)
    · obtain ⟨k, hk, heq⟩ := List.mem_map.mp h2
      obtain ⟨rfl⟩ : nm = k := by
        injection heq.symm
      exact isProperty_ne_children
        (Bool.and_eq_true _ _ ▸ (List.mem_filter.mp hk).2).1
    · obtain ⟨k, _, heq⟩ := List.mem_map.mp h3
      exact absurd heq (by simp)
    · obtain ⟨k, _, heq⟩ := List.mem_map.mp h4
      exact absurd heq (by simp)
  · intro nm v hmem
    simp only [updateDom, List.mem_append] at hmem
    rcases hmem with ((h1 | h2) | h3) | h4
    · obtain ⟨k, _, heq⟩ := List.mem_map.mp h1
      exact absurd heq (by simp)
    · obtain ⟨k, _, heq⟩ := List.mem_map.mp h2
      exact absurd heq (by simp)
    · obtain ⟨k, hk, heq⟩ := List.mem_map.mp h3
      obtain ⟨rfl, -⟩ : nm = k ∧ v = jsGet nextProps k := by
        have := heq.symm
        injection this with h1 h2
        exact ⟨h1, h2⟩
      exact isProperty_ne_children
        (Bool.and_eq_true _ _ ▸ (List.mem_filter.mp hk).2).1
    · obtain ⟨k, _, heq⟩ := List.mem_map.mp h4
      exact absurd heq (by simp)
  · simp only [updateDom, removeOldListeners_scrub, removeOldProperties_scrub,
      setNewProperties_scrub, addNewListeners_scrub]

/-! ### The two engine copies: `createElement` and friends (claim C2)

src/index.js holds two near-duplicate engines (first copy lines 1-379,
second copy lines 380-855).  A `createElement` child argument can be an
element object, a raw primitive (string/number), or an array literal; the
reserved `children` key of the resulting props bag is the separate
`children` field of `JChild.node`. -/

/-- A value passed as a child to `createElement` (and a produced element):
an element node, a raw primitive, or an array of children. -/
inductive JChild where
  | node (type : Tag) (bag : List (String × String)) (children : List JChild)
  | prim (text : String)
  | arr (cs : List JChild)

/-- `createTextElement` (src/index.js lines 77-85, identical in both
copies). -/
def createTextElement (text : String) : JChild :=
  JChild.node (Tag.host "TEXT_ELEMENT") [("nodeValue", text)] []

/-- The per-child normalization `typeof child === 'object' ? child :
createTextElement(child)` (both copies): element nodes and arrays are
objects and pass through untouched; primitives get wrapped. -/
def normalizeChild : JChild → JChild
  | JChild.prim text => createTextElement text
  | c => c

/-- First copy's `createElement` (src/index.js lines 65-75): map the
normalization over the children arguments as given. -/
def createElement (type : Tag) (props : List (String × String))
    (children : List JChild) : JChild :=
  JChild.node type props (children.map normalizeChild)

/-- `Array.prototype.flat()` at its default depth 1, as used by the second
copy's `createElement`. -/
def flatOne : List JChild → List JChild
  | [] => []
  | JChild.arr cs :: rest => cs ++ flatOne rest
  | c :: rest => c :: flatOne rest

/-- Second copy's `createElement` (src/index.js lines 469-481): flatten the
children arguments one level before mapping the same normalization. -/
def createElement2 (type : Tag) (props : List (String × String))
    (children : List JChild) : JChild :=
  JChild.node type props ((flatOne children).map normalizeChild)

/-- Second copy's changed-prop test `isPropNew` (src/index.js lines
530-531). -/
def isPropNew {V : Type} [DecidableEq V] (prevProps nextProps : List (String × V))
    (prop : String) : Bool :=
  decide (jsGet prevProps prop ≠ jsGet nextProps prop)

/-- Second copy's removed-prop test `isPropRemoved` (src/index.js line
538). -/
def isPropRemoved {V : Type} (prevProps nextProps : List (String × V))
    (prop : String) : Bool :=
  !(jsGet nextProps prop).isSome

/-- Second copy's `updateDom` (src/index.js lines 546-584): the same four
phases, written with `isPropRemoved`/`isPropNew` and `slice(2)` instead of
`substring(2)`. -/
def updateDom2 {V : Type} [DecidableEq V]
    (prevProps nextProps : List (String × V)) : List (DomOp V) :=
  (((prevProps.map Prod.fst).filter (fun prop =>
      isEvent prop && (isPropRemoved prevProps nextProps prop ||
        isPropNew prevProps nextProps prop))).map
    (fun prop => DomOp.removeListener (eventType prop) (jsGet prevProps prop))) ++
  (((prevProps.map Prod.fst).filter (fun prop =>
      isProperty prop && isPropRemoved prevProps nextProps prop)).map
    (fun prop => DomOp.clearProperty prop)) ++
  (((nextProps.map Prod.fst).filter (fun prop =>
      isProperty prop && isPropNew prevProps nextProps prop)).map
    (fun prop => DomOp.setProperty prop (jsGet nextProps prop))) ++
  (((nextProps.map Prod.fst).filter (fun name =>
      isEvent name && isPropNew prevProps nextProps name)).map
    (fun name => DomOp.addListener (eventType name) (jsGet nextProps name)))

/-- Second copy's `useState` hook computation (src/index.js lines 709-738,
with `currHookIndex` for `hookIndex`): textually identical logic. -/
def useStateHook2 {S : Type} (oldHook : Option (Hook S)) (initial : S) : Hook S :=
  let base := match oldHook with
    | some h => h.state
    | none => initial
  let actions := match oldHook with
    | some h => h.queue
    | none => []
  { state := actions.foldl (fun st action => action st) base, queue := [] }

/-- C2 counterexample: on a children list holding one array child, the two
copies' `createElement` differ — the first keeps the raw array as a child,
the second flattens it and wraps its primitive in a text element. -/
theorem createElement_copies_differ :
    createElement (Tag.host "div") [] [JChild.arr [JChild.prim "a"]] ≠
      createElement2 (Tag.host "div") [] [JChild.arr [JChild.prim "a"]] := by
  intro h
  simp only [createElement, createElement2, flatOne, normalizeChild,
    createTextElement, List.map, List.nil_append, List.append_nil] at h
  injection h with h1 h2 h3
  injection h3 with h4 h5
  exact JChild.noConfusion h4

/-- `flat()` is the identity on a children list with no array child. -/
theorem flatOne_eq_self :
    ∀ children : List JChild,
      (∀ c ∈ children, ∀ cs, c ≠ JChild.arr cs) → flatOne children = children := by
  intro children
  induction children with
  | nil => intro _; rfl
  | cons c rest ih =>
      intro harr
      have hrest : flatOne rest = rest :=
        ih (fun x hx cs => harr x (List.mem_cons_of_mem c hx) cs)
      cases c with
      | node t b cs => simp [flatOne, hrest]
      | prim s => simp [flatOne, hrest]
      | arr cs =>
          exact absurd rfl (harr _ (List.mem_cons_self _ _) cs)

/-! ### The commit phase (claims C4, C6, C10)

The commit walk is embedded over a committed-side fiber shape `CFiber` with
explicit `child`/`sibling` links (`nullF` is the JS `null`), emitting the
host mutations as a trace.  `commitWork` receives the resolved dom parent
(the result of the `while (!domParentFiber.dom)` ancestor search, whose
chain model and success are claim C10): a fiber's child sees this fiber's
dom when present and the inherited one otherwise, a fiber's sibling shares
this fiber's dom parent. -/

/-- One host-tree mutation applied during commit: `appendChild`,
`updateDom` (the two props-bag ids), or `removeChild`. -/
inductive HostOp where
  | appendChild (parent child : Nat)
  | updateProps (dom : Nat) (prevProps nextProps : Nat)
  | removeChild (parent child : Nat)
deriving DecidableEq, Repr

/-- A fiber as visited by `commitWork`: dom handle, effect tag, props id,
`alternate.props` id (`none` when `alternate` is `null`), child and sibling
links.  `nullF` is the JS `null` fiber. -/
inductive CFiber where
  | nullF
  | mk (dom : Option Nat) (effectTag : Option Effect) (props : Nat)
      (altProps : Option Nat) (child sibling : CFiber)
deriving DecidableEq, Repr

/-- `commitDeletion` (src/index.js lines 168-174): remove the fiber's own
dom from the dom parent, else recurse into the child until a dom is found.
Reaching the JS `null` fiber (reading `fiber.dom` off `null`) is the crash
`none`. -/
def commitDeletion (domParent : Nat) : CFiber → Option (List HostOp)
  | CFiber.nullF => none
  | CFiber.mk dom _ _ _ child _ =>
      match dom with
      | some d => some [HostOp.removeChild domParent d]
      | none => commitDeletion domParent child

/-- The effect branch of `commitWork` (src/index.js lines 156-162): a
`PLACEMENT` with a dom appends it, an `UPDATE` with a dom diffs props
against `fiber.alternate.props` (crash when `alternate` is `null`), a
`DELETION` runs `commitDeletion` on the fiber itself, anything else is a
no-op.  The fiber handed to `commitDeletion` is rebuilt with a `nullF`
sibling; `commitDeletion` never reads the sibling field, so this is the
same call. -/
def commitOwnOps (domParent : Nat) : CFiber → Option (List HostOp)
  | CFiber.nullF => some []
  | CFiber.mk dom eff props altProps child _ =>
      match eff, dom with
      | some Effect.placement, some d => some [HostOp.appendChild domParent d]
      | some Effect.update, some d =>
          match altProps with
          | some ap => some [HostOp.updateProps d ap props]
          | none => none
      | some Effect.deletion, _ =>
          commitDeletion domParent (CFiber.mk dom eff props altProps child CFiber.nullF)
      | _, _ => some []

/-- `commitWork` (src/index.js lines 145-166): apply this fiber's effect,
then recurse into `fiber.child` and `fiber.sibling`. -/
def commitWork (domParent : Nat) : CFiber → Option (List HostOp)
  | CFiber.nullF => some []
  | CFiber.mk dom eff props altProps child sibling => do
      let own ← commitOwnOps domParent (CFiber.mk dom eff props altProps child CFiber.nullF)
      let c ← commitWork (dom.getD domParent) child
      let s ← commitWork domParent sibling
      pure (own ++ c ++ s)

/-- `deletions.forEach(commitWork)` (src/index.js line 139): each deleted
fiber is paired with its resolved dom parent (its parent chain lives in the
old tree). -/
def commitFibers : List (Nat × CFiber) → Option (List HostOp)
  | [] => some []
  | (dp, f) :: rest => do
      let a ← commitWork dp f
      let b ← commitFibers rest
      pure (a ++ b)

/-- `commitRoot` (src/index.js lines 138-143): process the pending
deletions first, then commit the work-in-progress tree under the root's
container dom.  (The trailing pointer swap `currentRoot = wipRoot; wipRoot
= null` does not touch the host tree and is omitted from the trace.) -/
def commitRoot (deletions : List (Nat × CFiber)) (container : Nat)
    (wipChild : CFiber) : Option (List HostOp) := do
  let a ← commitFibers deletions
  let b ← commitWork container wipChild
  pure (a ++ b)

/-- C4: in every commit pass the pending-deletions side list is processed
before the work-in-progress tree: the commit trace is the deletions-pass
trace followed by the tree-pass trace, so every op applied for the tree
sits at an index past the whole deletions pass; and a deleted fiber owning
a dom contributes exactly its host removal. -/
theorem commitRoot_deletions_first (deletions : List (Nat × CFiber))
    (container : Nat) (wipChild : CFiber) (A B : List HostOp)
    (hA : commitFibers deletions = some A)
    (hB : commitWork container wipChild = some B) :
    commitRoot deletions container wipChild = some (A ++ B) ∧
    (∀ j, j < B.length → (A ++ B)[A.length + j]? = B[j]?) ∧
    (∀ (dp d p : Nat) (ap : Option Nat),
      commitWork dp (CFiber.mk (some d) (some Effect.deletion) p ap
          CFiber.nullF CFiber.nullF) =
        some [HostOp.removeChild dp d]) := by
  refine ⟨?_, ?_, fun dp d p ap => rfl⟩
  · simp [commitRoot, hA, hB]
  · intro j hj
    rw [List.getElem?_append]
    rw [if_neg (by omega)]
    congr 1
    omega

/-- Witness for the deletions-first theorem on a concrete commit pass. -/
theorem commitRoot_deletions_first_witness :
    commitRoot [(0, CFiber.mk (some 3) (some Effect.deletion) 7 none
          CFiber.nullF CFiber.nullF)] 0
        (CFiber.mk (some 4) (some Effect.placement) 8 none
          CFiber.nullF CFiber.nullF) =
      some ([HostOp.removeChild 0 3] ++ [HostOp.appendChild 0 4]) ∧
    (∀ j, j < ([HostOp.appendChild 0 4] : List HostOp).length →
      (([HostOp.removeChild 0 3] : List HostOp) ++
          [HostOp.appendChild 0 4])[([HostOp.removeChild 0 3] :
            List HostOp).length + j]? =
        ([HostOp.appendChild 0 4] : List HostOp)[j]?) ∧
    (∀ (dp d p : Nat) (ap : Option Nat),
      commitWork dp (CFiber.mk (some d) (some Effect.deletion) p ap
          CFiber.nullF CFiber.nullF) =
        some [HostOp.removeChild dp d]) :=
  commitRoot_deletions_first
    [(0, CFiber.mk (some 3) (some Effect.deletion) 7 none
      CFiber.nullF CFiber.nullF)] 0
    (CFiber.mk (some 4) (some Effect.placement) 8 none
      CFiber.nullF CFiber.nullF)
    [HostOp.removeChild 0 3] [HostOp.appendChild 0 4] rfl rfl

/-- C6: `commitDeletion` never no-ops — it either crashes on a fully empty
chain or removes exactly one host node; a dom-less (render-function) fiber
whose child owns a host node has that host node removed; and committing a
`DELETION`-tagged dom-less fiber over such a child removes the underlying
host node from the host parent. -/
theorem commitDeletion_propagates :
    (∀ (dp : Nat) (f : CFiber),
      commitDeletion dp f = none ∨
        ∃ d, commitDeletion dp f = some [HostOp.removeChild dp d]) ∧
    (∀ (dp p : Nat) (eff : Option Effect) (ap : Option Nat) (d p2 : Nat)
        (eff2 : Option Effect) (ap2 : Option Nat) (c2 s2 sib : CFiber),
      commitDeletion dp (CFiber.mk none eff p ap
          (CFiber.mk (some d) eff2 p2 ap2 c2 s2) sib) =
        some [HostOp.removeChild dp d]) ∧
    (∀ (dp p : Nat) (ap : Option Nat) (d p2 : Nat) (ap2 : Option Nat),
      commitWork dp (CFiber.mk none (some Effect.deletion) p ap
          (CFiber.mk (some d) none p2 ap2 CFiber.nullF CFiber.nullF)
          CFiber.nullF) =
        some [HostOp.removeChild dp d]) := by
  refine ⟨?_, fun dp p eff ap d p2 eff2 ap2 c2 s2 sib => rfl,
    fun dp p ap d p2 ap2 => rfl⟩
  intro dp f
  induction f with
  | nullF => exact Or.inl rfl
  | mk dom eff props altProps child sibling ihc ihs =>
      cases dom with
      | some d => exact Or.inr ⟨d, rfl⟩
      | none =>
          show commitDeletion dp child = none ∨ _
          exact ihc

/-- The ancestor search `let domParentFiber = fiber.parent; while
(!domParentFiber.dom) domParentFiber = domParentFiber.parent` (src/index.js
lines 150-154), on the chain of ancestor dom fields, nearest ancestor
first.  Running past the root's absent parent (reading `.dom` off
`undefined`) is the crash `none`. -/
def findDomParent : List (Option Nat) → Option Nat
  | [] => none
  | some d :: _ => some d
  | none :: rest => findDomParent rest

/-- The ancestor-dom chain of every fiber reached by the `commitWork` walk
starting from a fiber whose parent chain is `parentChain`: the fiber itself
searches `parentChain`; its child's chain gains the fiber's dom in front;
its sibling shares the fiber's chain. -/
def domChains (parentChain : List (Option Nat)) : CFiber → List (List (Option Nat))
  | CFiber.nullF => []
  | CFiber.mk dom _ _ _ child sibling =>
      parentChain ::
        (domChains (dom :: parentChain) child ++ domChains parentChain sibling)

theorem findDomParent_of_mem_isSome :
    ∀ chain : List (Option Nat), (∃ x ∈ chain, x.isSome = true) →
      ∃ d, findDomParent chain = some d := by
  intro chain
  induction chain with
  | nil =>
      rintro ⟨x, hx, _⟩
      cases hx
  | cons a rest ih =>
      rintro ⟨x, hx, hxs⟩
      cases a with
      | some d => exact ⟨d, rfl⟩
      | none =>
          rcases List.mem_cons.mp hx with rfl | hmem
          · simp at hxs
          · exact ih ⟨x, hmem, hxs⟩

theorem domChains_findDomParent :
    ∀ (t : CFiber) (pc : List (Option Nat)), (∃ x ∈ pc, x.isSome = true) →
      ∀ chain ∈ domChains pc t, ∃ d, findDomParent chain = some d := by
  intro t
  induction t with
  | nullF =>
      intro pc _ chain hchain
      simp [domChains] at hchain
  | mk dom eff p ap child sibling ihc ihs =>
      intro pc hpc chain hchain
      simp only [domChains, List.mem_cons, List.mem_append] at hchain
      rcases hchain with rfl | hc | hs
      · exact findDomParent_of_mem_isSome chain hpc
      · refine ihc (dom :: pc) ?_ chain hc
        obtain ⟨x, hx, hxs⟩ := hpc
        exact ⟨x, List.mem_cons_of_mem _ hx, hxs⟩
      · exact ihs pc hpc chain hs

/-- C10: `render` makes the root fiber carry the host container as its dom,
so in a commit walk of a tree hung below it every fiber's parent chain
contains a dom-bearing fiber and the `commitWork` ancestor-search loop
terminates with a host handle; and a fiber without its own dom whose effect
is not `DELETION` (a render-function fiber) contributes no host mutation of
its own — commit is a no-op at it, recursing into child and sibling
only. -/
theorem commitWork_ancestor_search_terminates (container : Nat) (t : CFiber) :
    (∀ (elementProps : Nat) (s : Scheduler),
      (render elementProps container s).wipRoot =
        some (RootFiber.mk container elementProps s.currentRoot)) ∧
    (∀ chain ∈ domChains [some container] t,
      ∃ d, findDomParent chain = some d) ∧
    (∀ (dp : Nat) (eff : Option Effect) (p : Nat) (ap : Option Nat)
        (child sib : CFiber),
      eff = some Effect.update ∨ eff = some Effect.placement ∨ eff = none →
      commitWork dp (CFiber.mk none eff p ap child sib) = do
        let c ← commitWork dp child
        let s ← commitWork dp sib
        pure (c ++ s)) := by
  refine ⟨fun ep s => rfl, ?_, ?_⟩
  · exact domChains_findDomParent t [some container]
      ⟨some container, List.mem_cons_self _ _, rfl⟩
  · intro dp eff p ap child sib heff
    rcases heff with rfl | rfl | rfl <;> rfl

/-- Witness for the ancestor-search theorem: committing a dom-less
`UPDATE`-tagged fiber is a no-op at that fiber. -/
theorem commitWork_ancestor_search_terminates_witness :
    commitWork 3 (CFiber.mk none (some Effect.update) 5 none
        CFiber.nullF CFiber.nullF) = (do
      let c ← commitWork 3 CFiber.nullF
      let s ← commitWork 3 CFiber.nullF
      pure (c ++ s)) :=
  (commitWork_ancestor_search_terminates 3
      (CFiber.mk none (some Effect.update) 5 none CFiber.nullF
        CFiber.nullF)).2.2
    3 (some Effect.update) 5 none CFiber.nullF CFiber.nullF (Or.inl rfl)

/-- Witness for the deletion-propagation theorem: deleting a
render-function fiber whose rendered output owns host node 9 removes node 9
from the host parent. -/
theorem commitDeletion_propagates_witness :
    commitDeletion 0 (CFiber.mk none (some Effect.deletion) 7 none
        (CFiber.mk (some 9) none 8 none CFiber.nullF CFiber.nullF)
        CFiber.nullF) =
      some [HostOp.removeChild 0 9] :=
  commitDeletion_propagates.2.1 0 7 (some Effect.deletion) none 9 8 none
    none CFiber.nullF CFiber.nullF CFiber.nullF

/-- Witness for the hook-drain theorem: state 3 with queue `[+1, *2]`
exposes 8 on the next render. -/
theorem useState_drains_queue_in_order_witness :
    (useStateHook (some ⟨(3 : Nat), [fun n => n + 1, fun n => n * 2]⟩)
        0).state = ((3 : Nat) + 1) * 2 :=
  (useState_drains_queue_in_order Nat 3 0 (fun n => n + 1)
      (fun n => n * 2)).1

/-- Witness for the `updateDom` phases theorem: erasing a real `children`
entry from the previous bag leaves the trace unchanged. -/
theorem updateDom_phase_order_and_children_witness :
    updateDom (scrubChildren [("children", 0), ("style", 1)])
        (scrubChildren [("style", 2)]) =
      updateDom [("children", (0 : Nat)), ("style", 1)] [("style", 2)] :=
  (updateDom_phase_order_and_children Nat [("children", 0), ("style", 1)]
      [("style", 2)]).2.2.2.2.2.2.2

/-- Witness for the loop-termination theorem at a concrete input. -/
theorem reconcileChildren_loop_terminates_witness :
    reconcileLoop [⟨Tag.host "div", 0⟩]
        (([⟨Tag.host "div", 0⟩] : List RElement).length +
          ([] : List OldFiber).length) (startState []) =
      runSteps [⟨Tag.host "div", 0⟩]
        (max ([⟨Tag.host "div", 0⟩] : List RElement).length
          ([] : List OldFiber).length) (startState []) :=
  (reconcileChildren_loop_terminates [⟨Tag.host "div", 0⟩] []).2.2.2.1

/-! ### The second engine copy's remaining operations (claim C2)

The second copy (src/index.js lines 380-855) repeats `createTextElement`,
`render`, `setState`, `reconcileChildren` and the commit functions with
renamed globals (`wipRootFiber`, `currentRootFiber`, `fibersToDelete`,
`currHookIndex`) but textually identical logic; its `render` additionally
logs the new root to the console, which touches no engine state.  Each is
embedded below with a `2` suffix and proved behaviorally equal to the first
copy's embedding. -/

/-- Second copy's `createTextElement` (src/index.js lines 488-496). -/
def createTextElement2 (text : String) : JChild :=
  JChild.node (Tag.host "TEXT_ELEMENT") [("nodeValue", text)] []

/-- Second copy's `render` (src/index.js lines 640-651): same fresh
work-in-progress root over the container (the trailing `console.log`
mutates nothing). -/
def render2 (elementProps : Nat) (container : Nat) (s : Scheduler) : Scheduler :=
  let wip := RootFiber.mk container elementProps s.currentRoot
  { s with wipRoot := some wip, deletions := some [],
           nextUnitOfWork := some wip }

/-- Second copy's `setState` (src/index.js lines 724-733): push onto the
hook queue, fresh work-in-progress root from `currentRootFiber`, reset
`fibersToDelete`; crash on a null committed root. -/
def setState2 {S : Type} (hook : Hook S) (action : S → S) (s : Scheduler) :
    Option (Hook S × Scheduler) :=
  match s.currentRoot with
  | none => none
  | some cur =>
      let wip := RootFiber.mk cur.dom cur.props (some cur)
      some (hookPush hook action,
        { s with wipRoot := some wip, nextUnitOfWork := some wip,
                 deletions := some [] })

/-- Second copy's `reconcileChildren` (src/index.js lines 747-796):
textually identical loop, embedded the same way. -/
def reconcileChildren2 : List RElement → List OldFiber → List NewFiber × List OldFiber
  | [], olds => ([], olds)
  | element :: rest, [] =>
      let r := reconcileChildren2 rest []
      (mkPlacementFiber element :: r.1, r.2)
  | element :: rest, oldFiber :: olds =>
      if element.type = oldFiber.type then
        let r := reconcileChildren2 rest olds
        (mkUpdateFiber element oldFiber :: r.1, r.2)
      else
        let r := reconcileChildren2 rest olds
        (mkPlacementFiber element :: r.1, oldFiber :: r.2)

/-- Second copy's `commitDeletion` (src/index.js lines 627-633). -/
def commitDeletion2 (domParent : Nat) : CFiber → Option (List HostOp)
  | CFiber.nullF => none
  | CFiber.mk dom _ _ _ child _ =>
      match dom with
      | some d => some [HostOp.removeChild domParent d]
      | none => commitDeletion2 domParent child

/-- Second copy's `commitWork` effect branch (src/index.js lines
610-616). -/
def commitOwnOps2 (domParent : Nat) : CFiber → Option (List HostOp)
  | CFiber.nullF => some []
  | CFiber.mk dom eff props altProps child _ =>
      match eff, dom with
      | some Effect.placement, some d => some [HostOp.appendChild domParent d]
      | some Effect.update, some d =>
          match altProps with
          | some ap => some [HostOp.updateProps d ap props]
          | none => none
      | some Effect.deletion, _ =>
          commitDeletion2 domParent (CFiber.mk dom eff props altProps child CFiber.nullF)
      | _, _ => some []

/-- Second copy's `commitWork` (src/index.js lines 597-620). -/
def commitWork2 (domParent : Nat) : CFiber → Option (List HostOp)
  | CFiber.nullF => some []
  | CFiber.mk dom eff props altProps child sibling => do
      let own ← commitOwnOps2 domParent (CFiber.mk dom eff props altProps child CFiber.nullF)
      let c ← commitWork2 (dom.getD domParent) child
      let s ← commitWork2 domParent sibling
      pure (own ++ c ++ s)

/-- Second copy's `fibersToDelete.forEach(commitWork)` (src/index.js line
587). -/
def commitFibers2 : List (Nat × CFiber) → Option (List HostOp)
  | [] => some []
  | (dp, f) :: rest => do
      let a ← commitWork2 dp f
      let b ← commitFibers2 rest
      pure (a ++ b)

/-- Second copy's `commitRoot` (src/index.js lines 586-591). -/
def commitRoot2 (deletions : List (Nat × CFiber)) (container : Nat)
    (wipChild : CFiber) : Option (List HostOp) := do
  let a ← commitFibers2 deletions
  let b ← commitWork2 container wipChild
  pure (a ++ b)

theorem reconcileChildren2_eq :
    ∀ (elements : List RElement) (olds : List OldFiber),
      reconcileChildren2 elements olds = reconcileChildren elements olds := by
  intro elements
  induction elements with
  | nil => intro olds; rfl
  | cons e rest ih =>
      intro olds
      cases olds with
      | nil => simp only [reconcileChildren2, reconcileChildren, ih []]
      | cons o os =>
          by_cases h : e.type = o.type
          · simp only [reconcileChildren2, reconcileChildren, if_pos h, ih os]
          · simp only [reconcileChildren2, reconcileChildren, if_neg h, ih os]

theorem commitDeletion2_eq :
    ∀ (f : CFiber) (dp : Nat), commitDeletion2 dp f = commitDeletion dp f := by
  intro f
  induction f with
  | nullF => intro dp; rfl
  | mk dom eff p ap child sibling ihc ihs =>
      intro dp
      cases dom with
      | some d => rfl
      | none => exact ihc dp

theorem commitOwnOps2_eq :
    ∀ (dp : Nat) (f : CFiber), commitOwnOps2 dp f = commitOwnOps dp f := by
  intro dp f
  cases f with
  | nullF => rfl
  | mk dom eff props altProps child sibling =>
      cases eff with
      | none => cases dom <;> rfl
      | some e =>
          cases e with
          | update =>
              cases dom with
              | none => rfl
              | some d => cases altProps <;> rfl
          | placement => cases dom <;> rfl
          | deletion => exact commitDeletion2_eq _ dp

theorem commitWork2_eq :
    ∀ (f : CFiber) (dp : Nat), commitWork2 dp f = commitWork dp f := by
  intro f
  induction f with
  | nullF => intro dp; rfl
  | mk dom eff props altProps child sibling ihc ihs =>
      intro dp
      simp only [commitWork2, commitWork, commitOwnOps2_eq, ihc, ihs]

theorem commitFibers2_eq :
    ∀ l : List (Nat × CFiber), commitFibers2 l = commitFibers l := by
  intro l
  induction l with
  | nil => rfl
  | cons a rest ih =>
      obtain ⟨dp, f⟩ := a
      simp only [commitFibers2, commitFibers, commitWork2_eq, ih]

theorem commitRoot2_eq :
    ∀ (deletions : List (Nat × CFiber)) (container : Nat) (wipChild : CFiber),
      commitRoot2 deletions container wipChild =
        commitRoot deletions container wipChild := by
  intro deletions container wipChild
  simp only [commitRoot2, commitRoot, commitFibers2_eq, commitWork2_eq]

/-- Weight of a children list: one per child, plus the weight of an array
child's elements.  One level of `flat()` removes exactly one unit for each
top-level array child, while the per-child normalization (which only turns
a primitive into a childless text element) keeps the weight; the weight
therefore separates the two copies' `createElement` outputs whenever an
array child exists. -/
def arrWeight : List JChild → Nat
  | [] => 0
  | JChild.arr cs :: rest => 1 + arrWeight cs + arrWeight rest
  | _ :: rest => 1 + arrWeight rest

theorem arrWeight_append :
    ∀ a b : List JChild, arrWeight (a ++ b) = arrWeight a + arrWeight b := by
  intro a
  induction a with
  | nil => intro b; simp [arrWeight]
  | cons c rest ih =>
      intro b
      cases c <;> simp [arrWeight, ih] <;> omega

theorem arrWeight_map_normalizeChild :
    ∀ l : List JChild, arrWeight (l.map normalizeChild) = arrWeight l := by
  intro l
  induction l with
  | nil => rfl
  | cons c rest ih =>
      cases c <;>
        simp [normalizeChild, createTextElement, arrWeight, ih]

theorem arrWeight_flatOne_le :
    ∀ l : List JChild, arrWeight (flatOne l) ≤ arrWeight l := by
  intro l
  induction l with
  | nil => exact Nat.le_refl _
  | cons c rest ih =>
      cases c with
      | node t b cs => simp [flatOne, arrWeight]; omega
      | prim s => simp [flatOne, arrWeight]; omega
      | arr cs =>
          simp only [flatOne, arrWeight, arrWeight_append]
          omega

theorem arrWeight_flatOne_lt :
    ∀ l : List JChild, (∃ c ∈ l, ∃ cs, c = JChild.arr cs) →
      arrWeight (flatOne l) < arrWeight l := by
  intro l
  induction l with
  | nil =>
      rintro ⟨c, hc, _⟩
      cases hc
  | cons c rest ih =>
      rintro ⟨c', hc', cs', heq⟩
      subst heq
      cases c with
      | arr cs =>
          have h1 := arrWeight_flatOne_le rest
          simp only [flatOne, arrWeight, arrWeight_append]
          omega
      | node t b cs =>
          rcases List.mem_cons.mp hc' with h | h
          · exact absurd h (by simp)
          · have := ih ⟨JChild.arr cs', h, cs', rfl⟩
            simp only [flatOne, arrWeight]
            omega
      | prim s =>
          rcases List.mem_cons.mp hc' with h | h
          · exact absurd h (by simp)
          · have := ih ⟨JChild.arr cs', h, cs', rfl⟩
            simp only [flatOne, arrWeight]
            omega

/-- C2 amended: the two copies are the same engine on every public
operation except `createElement`'s child normalization: `createTextElement`,
`render`, the property diff, `useState`'s hook computation, `setState`, the
reconciliation step and the commit steps are behaviorally equal; and the
copies' `createElement` return equal Elements exactly when no child
argument is an array — the second copy flattens array children one level
before normalizing, the first keeps raw arrays. -/
theorem engine_copies_agree :
    (∀ (type : Tag) (props : List (String × String)) (children : List JChild),
      createElement type props children = createElement2 type props children ↔
        ∀ c ∈ children, ∀ cs, c ≠ JChild.arr cs) ∧
    (∀ text, createTextElement2 text = createTextElement text) ∧
    (∀ (elementProps container : Nat) (s : Scheduler),
      render2 elementProps container s = render elementProps container s) ∧
    (∀ (V : Type) (inst : DecidableEq V)
        (prevProps nextProps : List (String × V)),
      updateDom2 prevProps nextProps = updateDom prevProps nextProps) ∧
    (∀ (S : Type) (oldHook : Option (Hook S)) (initial : S),
      useStateHook2 oldHook initial = useStateHook oldHook initial) ∧
    (∀ (S : Type) (hook : Hook S) (action : S → S) (s : Scheduler),
      setState2 hook action s = setState hook action s) ∧
    (∀ (elements : List RElement) (olds : List OldFiber),
      reconcileChildren2 elements olds = reconcileChildren elements olds) ∧
    (∀ (dp : Nat) (f : CFiber), commitDeletion2 dp f = commitDeletion dp f) ∧
    (∀ (dp : Nat) (f : CFiber), commitWork2 dp f = commitWork dp f) ∧
    (∀ (deletions : List (Nat × CFiber)) (container : Nat) (wipChild : CFiber),
      commitRoot2 deletions container wipChild =
        commitRoot deletions container wipChild) := by
  refine ⟨?_, fun text => rfl, fun ep c s => rfl,
    fun V inst prevProps nextProps => rfl, fun S o i => rfl,
    fun S hook action s => rfl, reconcileChildren2_eq,
    fun dp f => commitDeletion2_eq f dp, fun dp f => commitWork2_eq f dp,
    commitRoot2_eq⟩
  intro type props children
  constructor
  · intro h c hc cs heq
    subst heq
    have h3 : children.map normalizeChild =
        (flatOne children).map normalizeChild := by
      simp only [createElement, createElement2] at h
      injection h with h1 h2 h3
    have hw : arrWeight children = arrWeight (flatOne children) := by
      rw [← arrWeight_map_normalizeChild children, h3,
        arrWeight_map_normalizeChild]
    have hlt := arrWeight_flatOne_lt children ⟨JChild.arr cs, hc, cs, rfl⟩
    omega
  · intro harr
    simp only [createElement, createElement2, flatOne_eq_self children harr]

/-- Witness: the copies' `createElement` coincide on a concrete array-free
children list, via the agreement direction of the equivalence. -/
theorem engine_copies_agree_witness :
    createElement (Tag.host "div") [("id", "app")]
        [JChild.prim "a", JChild.node (Tag.host "span") [] []] =
      createElement2 (Tag.host "div") [("id", "app")]
        [JChild.prim "a", JChild.node (Tag.host "span") [] []] :=
  (engine_copies_agree.1 (Tag.host "div") [("id", "app")]
      [JChild.prim "a", JChild.node (Tag.host "span") [] []]).mpr
    (by
      intro c hc cs h
      subst h
      simp [List.mem_cons] at hc)
